import Mathlib

/-!
Shallow embedding of `qmoney_mps_quorum_demo.py`: a quantum-money style
demo with a single-qubit BB84 state engine, a ledger, a quorum of verifier
nodes holding bill secrets, and a verify-and-remint protocol.

Python-side mutable state (the ledger, node secret stores, the bill's
qubit list, the RNG) is threaded explicitly.  Python's `random.Random`
objects are modelled abstractly as streams of draws: a float stream for
`random()` (values in `[0,1)` for the real generator) and an integer
stream for `getrandbits` / `randrange`; `random.Random(seed)` is modelled
by an uninterpreted map `mk : ℕ → RNG` supplied as a parameter, since the
Mersenne-Twister derivation is outside the source.  `secrets`-module
entropy used by minting is likewise passed in as an `Entropy` record.
-/

namespace QMoney

/-- A qubit `(alpha, beta)` in the computational basis, as in the source's
`Qubit = Tuple[complex, complex]`. -/
abbrev Qubit := ℂ × ℂ

/-- `_SQRT2 = math.sqrt(2.0)`. -/
noncomputable def SQRT2 : ℝ := Real.sqrt 2

noncomputable def KET0 : Qubit := (1, 0)

noncomputable def KET1 : Qubit := (0, 1)

/-- `KETP = (1/_SQRT2, 1/_SQRT2)`, the state `|+>`. -/
noncomputable def KETP : Qubit := (((1 / SQRT2 : ℝ) : ℂ), ((1 / SQRT2 : ℝ) : ℂ))

/-- `KETM = (1/_SQRT2, -1/_SQRT2)`, the state `|->`. -/
noncomputable def KETM : Qubit := (((1 / SQRT2 : ℝ) : ℂ), ((-(1 / SQRT2) : ℝ) : ℂ))

/-- `_abs2(z) = z.real*z.real + z.imag*z.imag`. -/
def abs2 (z : ℂ) : ℝ := z.re * z.re + z.im * z.im

/-- `apply_h`: the Hadamard transform `((a+b)/sqrt2, (a-b)/sqrt2)`. -/
noncomputable def apply_h (q : Qubit) : Qubit :=
  ((q.1 + q.2) / ((SQRT2 : ℝ) : ℂ), (q.1 - q.2) / ((SQRT2 : ℝ) : ℂ))

/-- `apply_x`: the bit flip `(b, a)`. -/
def apply_x (q : Qubit) : Qubit := (q.2, q.1)

/-- `prepare_bb84(basis, bit)`. -/
noncomputable def prepare_bb84 (basis bit : ℕ) : Qubit :=
  if basis = 0 then (if bit = 0 then KET0 else KET1)
  else (if bit = 0 then KETP else KETM)

/-- Model of a Python `random.Random` object: a stream of future `random()`
floats, a stream of future integer draws, and cursors into both. -/
structure RNG where
  floats : ℕ → ℝ
  ints : ℕ → ℕ
  fpos : ℕ
  ipos : ℕ

/-- `rng.random()`: pop the next float draw. -/
def RNG.rand (g : RNG) : ℝ × RNG :=
  (g.floats g.fpos, { g with fpos := g.fpos + 1 })

/-- `rng.getrandbits(64)`: pop the next integer draw, reduced below `2^64`. -/
def RNG.getrandbits64 (g : RNG) : ℕ × RNG :=
  (g.ints g.ipos % 2 ^ 64, { g with ipos := g.ipos + 1 })

/-- `rng.randrange(2)`: pop the next integer draw, reduced below `2`. -/
def RNG.randrange2 (g : RNG) : ℕ × RNG :=
  (g.ints g.ipos % 2, { g with ipos := g.ipos + 1 })

/-- A float-draw stream is valid when every draw lies in `[0, 1)`, as
Python's `random()` guarantees. -/
def RNG.Valid (g : RNG) : Prop := ∀ i, 0 ≤ g.floats i ∧ g.floats i < 1

/-- `measure_z(qubit, rng)`: projective Z measurement; outcome `0` with
probability `|alpha|^2`, collapsing to `KET0`/`KET1`. -/
noncomputable def measure_z (q : Qubit) (g : RNG) : ℕ × Qubit × RNG :=
  let p0 := abs2 q.1
  let (r, g') := g.rand
  let outcome : ℕ := if r < p0 then 0 else 1
  (outcome, if outcome = 0 then KET0 else KET1, g')

/-- `measure_x(qubit, rng)`: measure in the X basis by rotating with `apply_h`,
collapsing to `KETP`/`KETM`. -/
noncomputable def measure_x (q : Qubit) (g : RNG) : ℕ × Qubit × RNG :=
  let res := measure_z (apply_h q) g
  (res.1, if res.1 = 0 then KETP else KETM, res.2.2)

/-- `measure_in_basis(qubit, basis, rng)`. -/
noncomputable def measure_in_basis (q : Qubit) (basis : ℕ) (g : RNG) :
    ℕ × Qubit × RNG :=
  if basis = 0 then measure_z q g else measure_x q g

/-- `maybe_bitflip(qubit, p, rng)`: with probability `p` apply `apply_x`;
consumes no draw when `p <= 0`. -/
noncomputable def maybe_bitflip (q : Qubit) (p : ℝ) (g : RNG) : Qubit × RNG :=
  if p ≤ 0 then (q, g)
  else
    let (r, g') := g.rand
    (if r < p then apply_x q else q, g')

/-- `Bill`: a serial plus one qubit per site (the qubit list is mutated in
place by measurement in the source; here it is threaded). -/
structure Bill where
  serial : String
  qubits : List Qubit

/-- `bill.n = len(bill.qubits)`. -/
def Bill.n (b : Bill) : ℕ := b.qubits.length

/-- `BillSecret`: per-site basis choices (0=Z, 1=X) and expected bits. -/
structure BillSecret where
  basis : List ℕ
  bits : List ℕ

/-- `Ledger`: the spent set and the owner map (a Python dict, so lookups
return an `Option`). -/
structure Ledger where
  spent : List String
  owner : String → Option String

def Ledger.register (l : Ledger) (serial owner : String) : Ledger :=
  { l with owner := fun s => if s = serial then some owner else l.owner s }

def Ledger.owner_of (l : Ledger) (serial : String) : Option String :=
  l.owner serial

def Ledger.is_spent (l : Ledger) (serial : String) : Prop :=
  serial ∈ l.spent

instance (l : Ledger) (s : String) : Decidable (l.is_spent s) :=
  inferInstanceAs (Decidable (s ∈ l.spent))

def Ledger.mark_spent (l : Ledger) (serial : String) : Ledger :=
  { l with spent := serial :: l.spent }

/-- `QuorumNode`: a node id and the per-serial secret store. -/
structure QuorumNode where
  node_id : ℕ
  secrets : String → Option BillSecret

def QuorumNode.store_secret (nd : QuorumNode) (serial : String)
    (secret : BillSecret) : QuorumNode :=
  { nd with secrets := fun s => if s = serial then some secret else nd.secrets s }

def QuorumNode.has_secret (nd : QuorumNode) (serial : String) : Bool :=
  (nd.secrets serial).isSome

/-- One step of the loop body of `QuorumNode.verify_indices` at index `i`:
apply noise, measure in the secret's basis, overwrite the site with the
collapsed state, count a match when the outcome equals the expected bit. -/
noncomputable def verify_step (secret : BillSecret) (noise_p : ℝ)
    (acc : ℕ × Bill × RNG) (i : ℕ) : ℕ × Bill × RNG :=
  let qg := maybe_bitflip (acc.2.1.qubits.getD i (0, 0)) noise_p acc.2.2
  let res := measure_in_basis qg.1 (secret.basis.getD i 0) qg.2
  (if res.1 = secret.bits.getD i 0 then acc.1 + 1 else acc.1,
   { acc.2.1 with qubits := acc.2.1.qubits.set i res.2.1 }, res.2.2)

/-- `QuorumNode.verify_indices`: measure the given indices, returning
`(matches, measured, updated bill, updated rng)`.  The protocol only calls
this on nodes holding a secret for the serial; the `none` branch mirrors
that unreachable case by measuring nothing. -/
noncomputable def QuorumNode.verify_indices (nd : QuorumNode) (bill : Bill)
    (indices : List ℕ) (noise_p : ℝ) (g : RNG) : ℕ × ℕ × Bill × RNG :=
  match nd.secrets bill.serial with
  | none => (0, 0, bill, g)
  | some secret =>
    let res := indices.foldl (verify_step secret noise_p) (0, bill, g)
    (res.1, indices.length, res.2.1, res.2.2)

/-- `QuorumService`: the node list and the validated approval threshold
(`QuorumService.init` is the only constructor in the source and rejects
thresholds outside `[1, len(nodes)]`). -/
structure QuorumService where
  nodes : List QuorumNode
  threshold : ℕ

/-- `QuorumService.__init__`: raises `ValueError` unless
`1 <= threshold <= len(nodes)`. -/
def QuorumService.init (nodes : List QuorumNode) (threshold : ℤ) :
    Except String QuorumService :=
  if threshold ≤ 0 ∨ threshold > (nodes.length : ℤ) then
    Except.error "threshold must be in [1, N]"
  else Except.ok ⟨nodes, threshold.toNat⟩

/-- Fresh entropy consumed by one `mint_bill` call: the `secrets.token_hex`
serial and the `secrets.randbelow(2)` streams for bases and bits. -/
structure Entropy where
  serial : String
  basisDraw : ℕ → ℕ
  bitDraw : ℕ → ℕ

/-- `QuorumService._mint_secret(n)`. -/
def mint_secret (ent : Entropy) (n : ℕ) : BillSecret :=
  ⟨(List.range n).map (fun i => ent.basisDraw i % 2),
   (List.range n).map (fun i => ent.bitDraw i % 2)⟩

/-- `QuorumService.mint_bill(n, owner, ledger)`: draw a serial and secret,
prepare the qubits, replicate the secret to every node, register the owner.
Returns the bill and the updated service and ledger. -/
noncomputable def mint_bill (svc : QuorumService) (ent : Entropy) (n : ℕ)
    (owner : String) (ledger : Ledger) : Bill × QuorumService × Ledger :=
  let secret := mint_secret ent n
  let qubits := (List.range n).map
    (fun i => prepare_bb84 (secret.basis.getD i 0) (secret.bits.getD i 0))
  let bill : Bill := ⟨ent.serial, qubits⟩
  let nodes := svc.nodes.map (fun nd => nd.store_secret ent.serial secret)
  (bill, { svc with nodes := nodes }, ledger.register ent.serial owner)

/-- `assignments`: round-robin partition of site indices, index `i` to node
`i % n_nodes`, each node's list in increasing order. -/
def assignments (n n_nodes : ℕ) : List (List ℕ) :=
  (List.range n_nodes).map (fun j => (List.range n).filter (fun i => i % n_nodes = j))

/-- Accumulated state of the node-visit loop in `verify_and_remint`. -/
structure LoopState where
  approvals : ℕ
  matches_total : ℕ
  measured_total : ℕ
  bill : Bill
  rng : RNG

/-- The node-visit loop of `verify_and_remint` over the enumerated node
list: `break` once `approvals >= threshold`, skip nodes without the secret,
otherwise derive a node-local rng from the session rng and run
`verify_indices` on the node's assigned partition. -/
noncomputable def nodeLoop (threshold : ℕ) (serial : String)
    (asg : List (List ℕ)) (noise_p : ℝ) (mk : ℕ → RNG) :
    List (ℕ × QuorumNode) → LoopState → LoopState
  | [], st => st
  | (node_idx, node) :: rest, st =>
    if st.approvals ≥ threshold then st
    else if node.has_secret serial then
      let (bits, rng') := st.rng.getrandbits64
      let node_rng := mk ((bits ^^^ (node_idx <<< 32)) ^^^ node.node_id)
      let res := node.verify_indices st.bill (asg.getD node_idx []) noise_p node_rng
      nodeLoop threshold serial asg noise_p mk rest
        ⟨st.approvals + 1, st.matches_total + res.1,
         st.measured_total + res.2.1, res.2.2.1, rng'⟩
    else nodeLoop threshold serial asg noise_p mk rest st

/-- The outcome of `verify_and_remint`: the accept flag and optional new
bill it returns, plus the threaded post-call state of the submitted bill,
the ledger and the service (mutated in place in the source). -/
structure VerifyResult where
  accepted : Bool
  newBill : Option Bill
  bill : Bill
  ledger : Ledger
  svc : QuorumService

/-- `QuorumService.verify_and_remint`: spent check, owner check, tolerance
validation (`ValueError` outside `[0, n]`), round-robin partition,
threshold-gated node walk, unconditional consumption, accept iff
`matches_total >= measured_total - tolerance`, and re-mint on acceptance. -/
noncomputable def verify_and_remint (svc : QuorumService) (bill : Bill)
    (claimant receiver : String) (ledger : Ledger) (tolerance : ℤ)
    (noise_p : ℝ) (seed : ℕ) (mk : ℕ → RNG) (ent : Entropy) :
    Except String VerifyResult :=
  if ledger.is_spent bill.serial then
    Except.ok ⟨false, none, bill, ledger, svc⟩
  else if ledger.owner_of bill.serial ≠ some claimant then
    Except.ok ⟨false, none, bill, ledger, svc⟩
  else if tolerance < 0 ∨ tolerance > (bill.n : ℤ) then
    Except.error "tolerance must be in [0, n]"
  else
    let rng := mk seed
    let asg := assignments bill.n svc.nodes.length
    let st := nodeLoop svc.threshold bill.serial asg noise_p mk
      svc.nodes.enum ⟨0, 0, 0, bill, rng⟩
    if st.approvals < svc.threshold then
      Except.ok ⟨false, none, st.bill, ledger.mark_spent bill.serial, svc⟩
    else
      let ledger' := ledger.mark_spent bill.serial
      let accepted := decide ((st.matches_total : ℤ) ≥ (st.measured_total : ℤ) - tolerance)
      if accepted then
        let res := mint_bill svc ent bill.n receiver ledger'
        Except.ok ⟨true, some res.1, st.bill, res.2.2, res.2.1⟩
      else
        Except.ok ⟨false, none, st.bill, ledger', svc⟩

/-- Per-qubit recursion of `counterfeit_intercept_resend`: guess a basis,
measure the true state in it, re-prepare the observed outcome. -/
noncomputable def counterfeitQubits : List Qubit → RNG → List Qubit × RNG
  | [], g => ([], g)
  | q :: rest, g =>
    let (guess, g1) := g.randrange2
    let res := measure_in_basis q guess g1
    let tail := counterfeitQubits rest res.2.2
    (prepare_bb84 guess res.1 :: tail.1, tail.2)

/-- `counterfeit_intercept_resend(bill, rng)`: a forged bill with the same
serial whose sites are the re-prepared measured guesses. -/
noncomputable def counterfeit_intercept_resend (bill : Bill) (g : RNG) :
    Bill × RNG :=
  let res := counterfeitQubits bill.qubits g
  (⟨bill.serial, res.1⟩, res.2)

/-- The loop state reached by a `verify_and_remint` session that enters the
node-visit phase: the node walk run from the zeroed accumulator. -/
noncomputable def sessionState (svc : QuorumService) (bill : Bill)
    (noise_p : ℝ) (seed : ℕ) (mk : ℕ → RNG) : LoopState :=
  nodeLoop svc.threshold bill.serial (assignments bill.n svc.nodes.length)
    noise_p mk svc.nodes.enum ⟨0, 0, 0, bill, mk seed⟩

/-- The accept flag of a protocol outcome (`false` for the error case). -/
def acceptedOf : Except String VerifyResult → Bool
  | Except.ok r => r.accepted
  | Except.error _ => false

lemma verify_spent (svc : QuorumService) (bill : Bill)
    (claimant receiver : String) (ledger : Ledger) (tolerance : ℤ)
    (noise_p : ℝ) (seed : ℕ) (mk : ℕ → RNG) (ent : Entropy)
    (h1 : ledger.is_spent bill.serial) :
    verify_and_remint svc bill claimant receiver ledger tolerance noise_p seed mk ent
      = Except.ok ⟨false, none, bill, ledger, svc⟩ := by
  simp only [verify_and_remint]
  rw [if_pos h1]

lemma verify_wrong_owner (svc : QuorumService) (bill : Bill)
    (claimant receiver : String) (ledger : Ledger) (tolerance : ℤ)
    (noise_p : ℝ) (seed : ℕ) (mk : ℕ → RNG) (ent : Entropy)
    (h1 : ¬ ledger.is_spent bill.serial)
    (h2 : ledger.owner_of bill.serial ≠ some claimant) :
    verify_and_remint svc bill claimant receiver ledger tolerance noise_p seed mk ent
      = Except.ok ⟨false, none, bill, ledger, svc⟩ := by
  simp only [verify_and_remint]
  rw [if_neg h1, if_pos h2]

lemma verify_bad_tolerance (svc : QuorumService) (bill : Bill)
    (claimant receiver : String) (ledger : Ledger) (tolerance : ℤ)
    (noise_p : ℝ) (seed : ℕ) (mk : ℕ → RNG) (ent : Entropy)
    (h1 : ¬ ledger.is_spent bill.serial)
    (h2 : ledger.owner_of bill.serial = some claimant)
    (h3 : tolerance < 0 ∨ tolerance > (bill.n : ℤ)) :
    verify_and_remint svc bill claimant receiver ledger tolerance noise_p seed mk ent
      = Except.error "tolerance must be in [0, n]" := by
  simp only [verify_and_remint]
  rw [if_neg h1, if_neg (by simp [h2]), if_pos h3]

/-- Unfolding of `verify_and_remint` past the three entry checks. -/
lemma verify_main (svc : QuorumService) (bill : Bill)
    (claimant receiver : String) (ledger : Ledger) (tolerance : ℤ)
    (noise_p : ℝ) (seed : ℕ) (mk : ℕ → RNG) (ent : Entropy)
    (h1 : ¬ ledger.is_spent bill.serial)
    (h2 : ledger.owner_of bill.serial = some claimant)
    (h3 : 0 ≤ tolerance) (h4 : tolerance ≤ (bill.n : ℤ)) :
    verify_and_remint svc bill claimant receiver ledger tolerance noise_p seed mk ent
      = (if (sessionState svc bill noise_p seed mk).approvals < svc.threshold then
          Except.ok ⟨false, none, (sessionState svc bill noise_p seed mk).bill,
            ledger.mark_spent bill.serial, svc⟩
        else if decide (((sessionState svc bill noise_p seed mk).matches_total : ℤ)
            ≥ ((sessionState svc bill noise_p seed mk).measured_total : ℤ) - tolerance) then
          Except.ok ⟨true,
            some (mint_bill svc ent bill.n receiver (ledger.mark_spent bill.serial)).1,
            (sessionState svc bill noise_p seed mk).bill,
            (mint_bill svc ent bill.n receiver (ledger.mark_spent bill.serial)).2.2,
            (mint_bill svc ent bill.n receiver (ledger.mark_spent bill.serial)).2.1⟩
        else
          Except.ok ⟨false, none, (sessionState svc bill noise_p seed mk).bill,
            ledger.mark_spent bill.serial, svc⟩) := by
  simp only [verify_and_remint, sessionState]
  rw [if_neg h1, if_neg (by simp [h2]),
    if_neg (by push_neg; exact ⟨h3, h4⟩)]

lemma is_spent_register (l : Ledger) (s o t : String) :
    (l.register s o).is_spent t ↔ l.is_spent t := Iff.rfl

lemma is_spent_mark_spent_self (l : Ledger) (s : String) :
    (l.mark_spent s).is_spent s := List.mem_cons_self s l.spent

/-- C3: on an unspent serial, a claimant who is not the recorded owner is
rejected, and the bill, ledger (spent set and owner map) and every node's
state are returned exactly as they were: no site is measured. -/
theorem C3_wrong_owner_frame (svc : QuorumService) (bill : Bill)
    (claimant receiver : String) (ledger : Ledger) (tolerance : ℤ)
    (noise_p : ℝ) (seed : ℕ) (mk : ℕ → RNG) (ent : Entropy)
    (h1 : ¬ ledger.is_spent bill.serial)
    (h2 : ledger.owner_of bill.serial ≠ some claimant) :
    verify_and_remint svc bill claimant receiver ledger tolerance noise_p seed mk ent
      = Except.ok ⟨false, none, bill, ledger, svc⟩ :=
  verify_wrong_owner svc bill claimant receiver ledger tolerance noise_p seed mk ent h1 h2

def entW : Entropy := ⟨"t", fun _ => 0, fun _ => 0⟩

def nodeW : QuorumNode := ⟨0, fun s => if s = "s" then some ⟨[], []⟩ else none⟩

def svcW : QuorumService := ⟨[nodeW], 1⟩

def ledgerW : Ledger := ⟨[], fun s => if s = "s" then some "alice" else none⟩

def billW : Bill := ⟨"s", []⟩

noncomputable def rngW : RNG := ⟨fun _ => 0, fun _ => 0, 0, 0⟩

noncomputable def mkW : ℕ → RNG := fun _ => rngW

theorem C3_witness :
    verify_and_remint svcW billW "mallory" "bob" ledgerW 0 0 0 mkW entW
      = Except.ok ⟨false, none, billW, ledgerW, svcW⟩ :=
  C3_wrong_owner_frame svcW billW "mallory" "bob" ledgerW 0 0 0 mkW entW
    (by decide) (by decide)

/-- C2: a call that enters the node-visit phase (spent, owner and tolerance
checks all pass) always returns an outcome whose ledger has the serial
spent; and any call on a bill whose serial is spent in the ledger — for any
claimant, receiver, tolerance (in range or not), noise and seed — returns
`(False, None)` with the bill, ledger and every node untouched. -/
theorem C2_spent_serial_always_rejected (svc : QuorumService) (bill : Bill)
    (claimant receiver : String) (ledger : Ledger) (tolerance : ℤ)
    (noise_p : ℝ) (seed : ℕ) (mk : ℕ → RNG) (ent : Entropy)
    (h1 : ¬ ledger.is_spent bill.serial)
    (h2 : ledger.owner_of bill.serial = some claimant)
    (h3 : 0 ≤ tolerance) (h4 : tolerance ≤ (bill.n : ℤ)) :
    (∃ r, verify_and_remint svc bill claimant receiver ledger tolerance noise_p seed mk ent
        = Except.ok r ∧ r.ledger.is_spent bill.serial)
    ∧ ∀ (svc' : QuorumService) (bill' : Bill) (claimant' receiver' : String)
        (l' : Ledger) (tolerance' : ℤ) (noise' : ℝ) (seed' : ℕ)
        (mk' : ℕ → RNG) (ent' : Entropy),
        bill'.serial = bill.serial → l'.is_spent bill.serial →
        verify_and_remint svc' bill' claimant' receiver' l' tolerance' noise' seed' mk' ent'
          = Except.ok ⟨false, none, bill', l', svc'⟩ := by
  constructor
  · rw [verify_main svc bill claimant receiver ledger tolerance noise_p seed mk ent h1 h2 h3 h4]
    split_ifs with hlt hacc
    · exact ⟨_, rfl, is_spent_mark_spent_self ledger bill.serial⟩
    · refine ⟨_, rfl, ?_⟩
      simp only [mint_bill]
      exact is_spent_mark_spent_self ledger bill.serial
    · exact ⟨_, rfl, is_spent_mark_spent_self ledger bill.serial⟩
  · intro svc' bill' claimant' receiver' l' tolerance' noise' seed' mk' ent' hser hsp
    exact verify_spent svc' bill' claimant' receiver' l' tolerance' noise' seed' mk' ent'
      (by rw [Ledger.is_spent, hser]; exact hsp)

theorem C2_witness :
    (∃ r, verify_and_remint svcW billW "alice" "bob" ledgerW 0 0 0 mkW entW
        = Except.ok r ∧ r.ledger.is_spent billW.serial)
    ∧ ∀ (svc' : QuorumService) (bill' : Bill) (claimant' receiver' : String)
        (l' : Ledger) (tolerance' : ℤ) (noise' : ℝ) (seed' : ℕ)
        (mk' : ℕ → RNG) (ent' : Entropy),
        bill'.serial = billW.serial → l'.is_spent billW.serial →
        verify_and_remint svc' bill' claimant' receiver' l' tolerance' noise' seed' mk' ent'
          = Except.ok ⟨false, none, bill', l', svc'⟩ :=
  C2_spent_serial_always_rejected svcW billW "alice" "bob" ledgerW 0 0 0 mkW entW
    (by decide) (by decide) (by decide) (by decide)

/-- C7: configuration errors are raised, not returned as outcomes:
`QuorumService.__init__` errors exactly when the threshold lies outside
`[1, nodeCount]`, and `verify_and_remint` on an unspent, correctly-owned
bill errors exactly when the tolerance lies outside `[0, n]` (the checks
precede every mutation, so an error leaves ledger, nodes and bill as they
were). -/
theorem C7_config_errors_iff :
    (∀ (nodes : List QuorumNode) (t : ℤ),
      (∃ e, QuorumService.init nodes t = Except.error e)
        ↔ (t ≤ 0 ∨ t > (nodes.length : ℤ)))
    ∧ ∀ (svc : QuorumService) (bill : Bill) (claimant receiver : String)
        (ledger : Ledger) (tolerance : ℤ) (noise_p : ℝ) (seed : ℕ)
        (mk : ℕ → RNG) (ent : Entropy),
        ¬ ledger.is_spent bill.serial →
        ledger.owner_of bill.serial = some claimant →
        ((∃ e, verify_and_remint svc bill claimant receiver ledger tolerance
            noise_p seed mk ent = Except.error e)
          ↔ (tolerance < 0 ∨ tolerance > (bill.n : ℤ))) := by
  constructor
  · intro nodes t
    constructor
    · rintro ⟨e, he⟩
      by_contra hcond
      rw [QuorumService.init, if_neg hcond] at he
      exact Except.noConfusion he
    · intro hcond
      exact ⟨_, by rw [QuorumService.init, if_pos hcond]⟩
  · intro svc bill claimant receiver ledger tolerance noise_p seed mk ent h1 h2
    constructor
    · rintro ⟨e, he⟩
      by_contra hcond
      push_neg at hcond
      rw [verify_main svc bill claimant receiver ledger tolerance noise_p seed mk ent
        h1 h2 hcond.1 hcond.2] at he
      split_ifs at he
    · intro hcond
      exact ⟨_, verify_bad_tolerance svc bill claimant receiver ledger tolerance
        noise_p seed mk ent h1 h2 hcond⟩

theorem C7_witness :
    (∃ e, QuorumService.init [] 0 = Except.error e)
    ∧ (∃ e, verify_and_remint svcW billW "alice" "bob" ledgerW (-1) 0 0 mkW entW
        = Except.error e) :=
  ⟨(C7_config_errors_iff.1 [] 0).mpr (by decide),
   (C7_config_errors_iff.2 svcW billW "alice" "bob" ledgerW (-1) 0 0 mkW entW
      (by decide) (by decide)).mpr (by decide)⟩

/-- C5: for a fixed bill, claimant, receiver, ledger, noise and seed, and
tolerances `t1 <= t2` both within `[0, n]`, acceptance at `t1` implies
acceptance at `t2`: the node walk does not read the tolerance, and the
accept predicate `matches >= measured - t` is monotone in `t`. -/
theorem C5_tolerance_monotone (svc : QuorumService) (bill : Bill)
    (claimant receiver : String) (ledger : Ledger) (t1 t2 : ℤ)
    (noise_p : ℝ) (seed : ℕ) (mk : ℕ → RNG) (ent : Entropy)
    (h1 : ¬ ledger.is_spent bill.serial)
    (h2 : ledger.owner_of bill.serial = some claimant)
    (h3 : 0 ≤ t1) (h5 : t1 ≤ t2) (h4 : t2 ≤ (bill.n : ℤ))
    (hacc : acceptedOf (verify_and_remint svc bill claimant receiver ledger t1
      noise_p seed mk ent) = true) :
    acceptedOf (verify_and_remint svc bill claimant receiver ledger t2
      noise_p seed mk ent) = true := by
  rw [verify_main svc bill claimant receiver ledger t1 noise_p seed mk ent
    h1 h2 h3 (le_trans h5 h4)] at hacc
  rw [verify_main svc bill claimant receiver ledger t2 noise_p seed mk ent
    h1 h2 (le_trans h3 h5) h4]
  split_ifs at hacc with hlt hdec
  · exact absurd hacc (by simp [acceptedOf])
  · rw [if_neg hlt, if_pos (by
      have := of_decide_eq_true hdec
      exact decide_eq_true_eq.mpr (by omega))]
    simp [acceptedOf]
  · exact absurd hacc (by simp [acceptedOf])

theorem C5_witness :
    acceptedOf (verify_and_remint svcW billW "alice" "bob" ledgerW 0 0 0 mkW entW)
      = true :=
  C5_tolerance_monotone svcW billW "alice" "bob" ledgerW 0 0 0 0 mkW entW
    (by decide) (by decide) (by decide) (by decide) (by decide) (by decide)

/-- C1: when the spent, owner and tolerance checks pass and the node walk
reaches the threshold, the serial is marked spent unconditionally; the call
accepts iff `matches_total >= measured_total - tolerance`; on acceptance it
returns a brand-new bill of the same length `n`, registered to the
receiver in the ledger; on rejection it returns no new bill. -/
theorem C1_threshold_outcome (svc : QuorumService) (bill : Bill)
    (claimant receiver : String) (ledger : Ledger) (tolerance : ℤ)
    (noise_p : ℝ) (seed : ℕ) (mk : ℕ → RNG) (ent : Entropy)
    (h1 : ¬ ledger.is_spent bill.serial)
    (h2 : ledger.owner_of bill.serial = some claimant)
    (h3 : 0 ≤ tolerance) (h4 : tolerance ≤ (bill.n : ℤ))
    (hT : svc.threshold ≤ (sessionState svc bill noise_p seed mk).approvals) :
    ∃ r, verify_and_remint svc bill claimant receiver ledger tolerance noise_p seed mk ent
        = Except.ok r
      ∧ r.ledger.is_spent bill.serial
      ∧ (r.accepted = true ↔ ((sessionState svc bill noise_p seed mk).matches_total : ℤ)
          ≥ ((sessionState svc bill noise_p seed mk).measured_total : ℤ) - tolerance)
      ∧ (r.accepted = true → ∃ nb, r.newBill = some nb ∧ nb.n = bill.n
          ∧ nb.serial = ent.serial ∧ r.ledger.owner_of nb.serial = some receiver)
      ∧ (r.accepted = false → r.newBill = none) := by
  rw [verify_main svc bill claimant receiver ledger tolerance noise_p seed mk ent h1 h2 h3 h4,
    if_neg (not_lt.mpr hT)]
  split_ifs with hdec
  · refine ⟨_, rfl, ?_, ?_, ?_, ?_⟩
    · simp only [mint_bill]
      exact is_spent_mark_spent_self ledger bill.serial
    · simp only [true_iff]
      exact of_decide_eq_true hdec
    · intro _
      refine ⟨_, rfl, ?_, rfl, ?_⟩
      · simp [mint_bill, mint_secret, Bill.n]
      · simp [mint_bill, Ledger.register, Ledger.owner_of]
    · intro h
      exact absurd h (by simp)
  · refine ⟨_, rfl, is_spent_mark_spent_self ledger bill.serial, ?_, ?_, fun _ => rfl⟩
    · constructor
      · intro h
        exact absurd h (by simp)
      · intro hge
        exact absurd (decide_eq_true_eq.mpr hge) hdec
    · intro h
      exact absurd h (by simp)

theorem C1_witness :
    ∃ r, verify_and_remint svcW billW "alice" "bob" ledgerW 0 0 0 mkW entW
        = Except.ok r
      ∧ r.ledger.is_spent billW.serial
      ∧ (r.accepted = true ↔ ((sessionState svcW billW 0 0 mkW).matches_total : ℤ)
          ≥ ((sessionState svcW billW 0 0 mkW).measured_total : ℤ) - 0)
      ∧ (r.accepted = true → ∃ nb, r.newBill = some nb ∧ nb.n = billW.n
          ∧ nb.serial = entW.serial ∧ r.ledger.owner_of nb.serial = some "bob")
      ∧ (r.accepted = false → r.newBill = none) :=
  C1_threshold_outcome svcW billW "alice" "bob" ledgerW 0 0 0 mkW entW
    (by decide) (by decide) (by decide) (by decide) (by decide)

/-- Number of quorum nodes that hold a secret for `serial`. -/
def secretHolders (nodes : List QuorumNode) (serial : String) : ℕ :=
  (nodes.filter (fun nd => nd.has_secret serial)).length

lemma nodeLoop_of_threshold_le (th : ℕ) (serial : String) (asg : List (List ℕ))
    (noise_p : ℝ) (mk : ℕ → RNG) (l : List (ℕ × QuorumNode)) (st : LoopState)
    (h : th ≤ st.approvals) :
    nodeLoop th serial asg noise_p mk l st = st := by
  cases l with
  | nil => rfl
  | cons p rest =>
    obtain ⟨k, nd⟩ := p
    simp only [nodeLoop]
    rw [if_pos h]

lemma nodeLoop_append (th : ℕ) (serial : String) (asg : List (List ℕ))
    (noise_p : ℝ) (mk : ℕ → RNG) (l1 : List (ℕ × QuorumNode)) :
    ∀ (l2 : List (ℕ × QuorumNode)) (st : LoopState),
    nodeLoop th serial asg noise_p mk (l1 ++ l2) st
      = nodeLoop th serial asg noise_p mk l2 (nodeLoop th serial asg noise_p mk l1 st) := by
  induction l1 with
  | nil => intro l2 st; rfl
  | cons p rest ih =>
    intro l2 st
    obtain ⟨k, nd⟩ := p
    rw [List.cons_append]
    by_cases h : st.approvals ≥ th
    · rw [nodeLoop_of_threshold_le th serial asg noise_p mk _ st h,
        nodeLoop_of_threshold_le th serial asg noise_p mk _ st h,
        nodeLoop_of_threshold_le th serial asg noise_p mk l2 st h]
    · simp only [nodeLoop]
      rw [if_neg h, if_neg h]
      by_cases hs : nd.has_secret serial = true
      · rw [if_pos hs, if_pos hs]
        exact ih l2 _
      · rw [if_neg hs, if_neg hs]
        exact ih l2 st

lemma nodeLoop_approvals (th : ℕ) (serial : String) (asg : List (List ℕ))
    (noise_p : ℝ) (mk : ℕ → RNG) (l : List (ℕ × QuorumNode)) :
    ∀ (st : LoopState),
    (nodeLoop th serial asg noise_p mk l st).approvals
      = if th ≤ st.approvals then st.approvals
        else min th (st.approvals
          + ((l.map Prod.snd).filter (fun nd => nd.has_secret serial)).length) := by
  induction l with
  | nil =>
    intro st
    simp only [nodeLoop, List.map_nil, List.filter_nil, List.length_nil, Nat.add_zero]
    split_ifs with h
    · rfl
    · omega
  | cons p rest ih =>
    intro st
    obtain ⟨k, nd⟩ := p
    by_cases h : th ≤ st.approvals
    · rw [nodeLoop_of_threshold_le th serial asg noise_p mk _ st h, if_pos h]
    · rw [if_neg h]
      simp only [nodeLoop]
      rw [if_neg (show ¬ st.approvals ≥ th from h)]
      by_cases hs : nd.has_secret serial = true
      · rw [if_pos hs, ih]
        simp only [List.map_cons, List.filter_cons, hs, if_true, List.length_cons]
        rw [Nat.min_def]
        split_ifs <;> omega
      · have hs' : nd.has_secret serial = false := by
          revert hs; cases nd.has_secret serial <;> simp
        rw [if_neg hs, ih]
        simp only [List.map_cons, List.filter_cons, hs', Bool.false_eq_true, if_false]
        rw [if_neg h]

lemma enum_map_snd {α : Type _} (l : List α) : l.enum.map Prod.snd = l := by
  rw [List.enum_eq_enumFrom]
  exact List.enumFrom_map_snd 0 l

lemma sessionState_approvals (svc : QuorumService) (bill : Bill)
    (noise_p : ℝ) (seed : ℕ) (mk : ℕ → RNG) :
    (sessionState svc bill noise_p seed mk).approvals
      = min svc.threshold (secretHolders svc.nodes bill.serial) := by
  rw [sessionState, nodeLoop_approvals, enum_map_snd]
  rw [secretHolders]
  show (if svc.threshold ≤ 0 then 0
    else min svc.threshold
      (0 + (svc.nodes.filter (fun nd => nd.has_secret bill.serial)).length))
    = min svc.threshold (svc.nodes.filter (fun nd => nd.has_secret bill.serial)).length
  split_ifs with h <;> omega

lemma assignments_zero (N j : ℕ) : (assignments 0 N).getD j [] = [] := by
  rcases lt_or_ge j (assignments 0 N).length with hj | hj
  · rw [List.getD_eq_getElem _ _ hj]
    simp [assignments]
  · exact List.getD_eq_default _ _ hj

lemma nodeLoop_empty_asg (th : ℕ) (serial : String) (asg : List (List ℕ))
    (noise_p : ℝ) (mk : ℕ → RNG)
    (hasg : ∀ j, asg.getD j [] = ([] : List ℕ)) (l : List (ℕ × QuorumNode)) :
    ∀ (st : LoopState),
    (nodeLoop th serial asg noise_p mk l st).measured_total = st.measured_total
    ∧ (nodeLoop th serial asg noise_p mk l st).matches_total = st.matches_total := by
  induction l with
  | nil => intro st; exact ⟨rfl, rfl⟩
  | cons p rest ih =>
    intro st
    obtain ⟨k, nd⟩ := p
    simp only [nodeLoop]
    by_cases h : st.approvals ≥ th
    · rw [if_pos h]
      exact ⟨rfl, rfl⟩
    · rw [if_neg h]
      by_cases hs : nd.has_secret serial = true
      · rw [if_pos hs]
        simp only [QuorumNode.verify_indices, hasg k]
        cases hsec : nd.secrets st.bill.serial with
        | none =>
          simp only [hsec]
          exact ⟨(ih _).1, (ih _).2⟩
        | some secret =>
          simp only [hsec, List.foldl_nil, List.length_nil]
          exact ⟨(ih _).1, (ih _).2⟩
      · rw [if_neg hs]
        exact ih st

lemma getD_set_ne {α : Type _} (l : List α) (j i : ℕ) (a d : α) (hne : i ≠ j) :
    (l.set j a).getD i d = l.getD i d := by
  rw [List.getD_eq_getElem?_getD, List.getD_eq_getElem?_getD,
    List.getElem?_set_ne (fun h => hne h.symm)]

lemma foldl_verify_step_untouched (secret : BillSecret) (noise_p : ℝ) (i : ℕ)
    (d : Qubit) (indices : List ℕ) :
    ∀ (acc : ℕ × Bill × RNG), i ∉ indices →
    (indices.foldl (verify_step secret noise_p) acc).2.1.qubits.getD i d
      = acc.2.1.qubits.getD i d := by
  induction indices with
  | nil => intro acc _; rfl
  | cons j rest ih =>
    intro acc hni
    rw [List.foldl_cons, ih _ (fun hmem => hni (List.mem_cons_of_mem j hmem))]
    have hij : i ≠ j := fun he => hni (he ▸ List.mem_cons_self j rest)
    exact getD_set_ne _ j i _ d hij

lemma verify_indices_untouched (nd : QuorumNode) (bill : Bill) (indices : List ℕ)
    (noise_p : ℝ) (g : RNG) (i : ℕ) (d : Qubit) (hni : i ∉ indices) :
    (nd.verify_indices bill indices noise_p g).2.2.1.qubits.getD i d
      = bill.qubits.getD i d := by
  unfold QuorumNode.verify_indices
  cases nd.secrets bill.serial with
  | none => rfl
  | some secret => exact foldl_verify_step_untouched secret noise_p i d indices _ hni

lemma nodeLoop_untouched (th : ℕ) (serial : String) (asg : List (List ℕ))
    (noise_p : ℝ) (mk : ℕ → RNG) (i : ℕ) (d : Qubit) (l : List (ℕ × QuorumNode)) :
    ∀ (st : LoopState), (∀ p ∈ l, i ∉ asg.getD p.1 ([] : List ℕ)) →
    (nodeLoop th serial asg noise_p mk l st).bill.qubits.getD i d
      = st.bill.qubits.getD i d := by
  induction l with
  | nil => intro st _; rfl
  | cons p rest ih =>
    intro st hl
    obtain ⟨k, nd⟩ := p
    simp only [nodeLoop]
    by_cases h : st.approvals ≥ th
    · rw [if_pos h]
    · rw [if_neg h]
      by_cases hs : nd.has_secret serial = true
      · rw [if_pos hs]
        rw [ih _ (fun q hq => hl q (List.mem_cons_of_mem _ hq))]
        exact verify_indices_untouched nd st.bill _ noise_p _ i d
          (hl (k, nd) (List.mem_cons_self _ _))
      · rw [if_neg hs]
        exact ih st (fun q hq => hl q (List.mem_cons_of_mem _ hq))

/-- C8: a visited node contributes an approval exactly when it holds a
secret for the serial, independently of its measurement results (even with
an empty partition): the final approval count is
`min threshold (number of secret-holding nodes)`; the insufficient-quorum
branch is taken iff fewer than `threshold` nodes hold the secret; and an
unspent, correctly-owned bill of length `0` with enough secret holders is
always accepted and re-minted, since `0 >= 0 - tolerance`. -/
theorem C8_secret_holders_drive_approval :
    (∀ (svc : QuorumService) (bill : Bill) (noise_p : ℝ) (seed : ℕ) (mk : ℕ → RNG),
      (sessionState svc bill noise_p seed mk).approvals
        = min svc.threshold (secretHolders svc.nodes bill.serial))
    ∧ (∀ (svc : QuorumService) (bill : Bill) (noise_p : ℝ) (seed : ℕ) (mk : ℕ → RNG),
      ((sessionState svc bill noise_p seed mk).approvals < svc.threshold
        ↔ secretHolders svc.nodes bill.serial < svc.threshold))
    ∧ ∀ (svc : QuorumService) (bill : Bill) (claimant receiver : String)
        (ledger : Ledger) (tolerance : ℤ) (noise_p : ℝ) (seed : ℕ)
        (mk : ℕ → RNG) (ent : Entropy),
        bill.n = 0 →
        ¬ ledger.is_spent bill.serial →
        ledger.owner_of bill.serial = some claimant →
        0 ≤ tolerance → tolerance ≤ (bill.n : ℤ) →
        svc.threshold ≤ secretHolders svc.nodes bill.serial →
        ∃ r nb, verify_and_remint svc bill claimant receiver ledger tolerance
            noise_p seed mk ent = Except.ok r
          ∧ r.accepted = true ∧ r.newBill = some nb := by
  refine ⟨sessionState_approvals, ?_, ?_⟩
  · intro svc bill noise_p seed mk
    rw [sessionState_approvals]
    omega
  · intro svc bill claimant receiver ledger tolerance noise_p seed mk ent
      hn h1 h2 h3 h4 hth
    rw [verify_main svc bill claimant receiver ledger tolerance noise_p seed mk ent
      h1 h2 h3 h4]
    have happ := sessionState_approvals svc bill noise_p seed mk
    have hme : (sessionState svc bill noise_p seed mk).measured_total = 0 := by
      rw [sessionState]
      exact (nodeLoop_empty_asg svc.threshold bill.serial
        (assignments bill.n svc.nodes.length) noise_p mk
        (by rw [hn]; exact fun j => assignments_zero _ j)
        svc.nodes.enum ⟨0, 0, 0, bill, mk seed⟩).1
    rw [if_neg (show ¬ _ < svc.threshold by rw [happ]; omega)]
    have hacc : decide (((sessionState svc bill noise_p seed mk).matches_total : ℤ)
        ≥ ((sessionState svc bill noise_p seed mk).measured_total : ℤ) - tolerance)
        = true := by
      rw [hme]
      exact decide_eq_true_eq.mpr (by omega)
    rw [if_pos hacc]
    exact ⟨_, _, rfl, rfl, rfl⟩

theorem C8_witness :
    ∃ r nb, verify_and_remint svcW billW "alice" "bob" ledgerW 0 0 0 mkW entW
        = Except.ok r ∧ r.accepted = true ∧ r.newBill = some nb :=
  C8_secret_holders_drive_approval.2.2 svcW billW "alice" "bob" ledgerW 0 0 0 mkW entW
    rfl (by decide) (by decide) (by decide) (by decide) (by decide)

lemma assignments_mem (n N j : ℕ) (hj : j < N) (i : ℕ) :
    i ∈ (assignments n N).getD j ([] : List ℕ) ↔ (i < n ∧ i % N = j) := by
  have hjl : j < (assignments n N).length := by
    rw [assignments, List.length_map, List.length_range]
    exact hj
  rw [List.getD_eq_getElem _ _ hjl]
  simp [assignments, List.mem_filter, List.mem_range]

lemma mem_take_exists {α : Type _} (t : List α) :
    ∀ (k : ℕ) (x : α), x ∈ t.take k → ∃ j, j < k ∧ t[j]? = some x := by
  induction t with
  | nil =>
    intro k x hx
    rw [List.take_nil] at hx
    exact absurd hx (List.not_mem_nil x)
  | cons a tt ih =>
    intro k x hx
    cases k with
    | zero =>
      rw [List.take_zero] at hx
      exact absurd hx (List.not_mem_nil x)
    | succ k' =>
      rw [List.take_succ_cons] at hx
      rcases List.mem_cons.mp hx with rfl | h'
      · exact ⟨0, Nat.succ_pos _, List.getElem?_cons_zero⟩
      · obtain ⟨j, hj, hg⟩ := ih k' x h'
        exact ⟨j + 1, Nat.succ_lt_succ hj, by rw [List.getElem?_cons_succ]; exact hg⟩

lemma mem_enum_take_fst {α : Type _} (l : List α) (k : ℕ) (p : ℕ × α)
    (hp : p ∈ l.enum.take k) : p.1 < k := by
  obtain ⟨j, hj, hg⟩ := mem_take_exists l.enum k p hp
  rw [List.getElem?_enum] at hg
  cases hl : l[j]? with
  | none =>
    rw [hl] at hg
    exact absurd hg (by simp)
  | some a =>
    rw [hl, Option.map_some'] at hg
    injection hg with h
    rw [← h]
    exact hj

/-- C6: the round-robin partition sends site `i` exactly to node
`i % nodeCount`; `verify_indices` leaves every site outside its given index
set untouched; and once the approval count reaches the threshold within the
first `k` nodes, the loop stops, so every site assigned to a node of index
`>= k` keeps exactly the qubit it had before the call. -/
theorem C6_partition_and_early_stop :
    (∀ (n N j : ℕ), j < N → ∀ i : ℕ,
      (i ∈ (assignments n N).getD j ([] : List ℕ)) ↔ (i < n ∧ i % N = j))
    ∧ (∀ (nd : QuorumNode) (bill : Bill) (indices : List ℕ) (noise_p : ℝ)
        (g : RNG) (i : ℕ) (d : Qubit), i ∉ indices →
        (nd.verify_indices bill indices noise_p g).2.2.1.qubits.getD i d
          = bill.qubits.getD i d)
    ∧ ∀ (svc : QuorumService) (bill : Bill) (noise_p : ℝ) (seed : ℕ)
        (mk : ℕ → RNG) (k i : ℕ),
        svc.threshold ≤ (nodeLoop svc.threshold bill.serial
          (assignments bill.n svc.nodes.length) noise_p mk
          (svc.nodes.enum.take k) ⟨0, 0, 0, bill, mk seed⟩).approvals →
        k ≤ i % svc.nodes.length →
        (sessionState svc bill noise_p seed mk).bill.qubits.getD i (0, 0)
          = bill.qubits.getD i (0, 0) := by
  refine ⟨assignments_mem, fun nd bill indices noise_p g i d hni =>
    verify_indices_untouched nd bill indices noise_p g i d hni, ?_⟩
  intro svc bill noise_p seed mk k i hT hk
  rw [sessionState, ← List.take_append_drop k svc.nodes.enum, nodeLoop_append,
    nodeLoop_of_threshold_le _ _ _ _ _ _ _ hT]
  apply nodeLoop_untouched
  intro p hp hmem
  have hpk : p.1 < k := mem_enum_take_fst _ k p hp
  have hpN : p.1 < svc.nodes.length := by
    have hmf := List.mem_of_mem_take hp
    rw [List.mem_enum_iff_getElem?] at hmf
    obtain ⟨hlt, _⟩ := List.getElem?_eq_some.mp hmf
    exact hlt
  have hchar := (assignments_mem bill.n svc.nodes.length p.1 hpN i).mp hmem
  omega

def nodeW1 : QuorumNode := ⟨1, fun s => if s = "s" then some ⟨[], []⟩ else none⟩

def svcW2 : QuorumService := ⟨[nodeW, nodeW1], 1⟩

theorem C6_witness :
    (sessionState svcW2 billW 0 0 mkW).bill.qubits.getD 1 (0, 0)
      = billW.qubits.getD 1 (0, 0) :=
  C6_partition_and_early_stop.2.2 svcW2 billW 0 0 mkW 1 1 (by decide) (by decide)

/-- The quantum-state invariant: squared magnitudes of the two amplitudes
sum to 1. -/
def normalized (q : Qubit) : Prop := abs2 q.1 + abs2 q.2 = 1

lemma sqrt2_mul_self : SQRT2 * SQRT2 = 2 := Real.mul_self_sqrt (by norm_num)

lemma sqrt2_ne_zero : SQRT2 ≠ 0 :=
  ne_of_gt (Real.sqrt_pos.mpr (by norm_num))

lemma abs2_ofReal (r : ℝ) : abs2 ((r : ℝ) : ℂ) = r * r := by
  simp [abs2]

lemma normalized_KET0 : normalized KET0 := by
  simp [normalized, KET0, abs2]

lemma normalized_KET1 : normalized KET1 := by
  simp [normalized, KET1, abs2]

lemma inv_sqrt2_sq : 1 / SQRT2 * (1 / SQRT2) = 1 / 2 := by
  rw [div_mul_div_comm, one_mul, sqrt2_mul_self]

lemma normalized_KETP : normalized KETP := by
  simp only [normalized, KETP, abs2_ofReal, inv_sqrt2_sq]
  norm_num

lemma normalized_KETM : normalized KETM := by
  simp only [normalized, KETM, abs2_ofReal, neg_mul_neg, inv_sqrt2_sq]
  norm_num

lemma normalized_prepare (basis bit : ℕ) : normalized (prepare_bb84 basis bit) := by
  rw [prepare_bb84]
  split_ifs
  · exact normalized_KET0
  · exact normalized_KET1
  · exact normalized_KETP
  · exact normalized_KETM

lemma abs2_add_add_abs2_sub (a b : ℂ) :
    abs2 (a + b) + abs2 (a - b) = 2 * (abs2 a + abs2 b) := by
  simp only [abs2, Complex.add_re, Complex.add_im, Complex.sub_re, Complex.sub_im]
  ring

lemma abs2_div_sqrt2 (z : ℂ) : abs2 (z / ((SQRT2 : ℝ) : ℂ)) = abs2 z / 2 := by
  rw [div_eq_mul_inv, ← Complex.ofReal_inv]
  simp only [abs2, Complex.mul_re, Complex.mul_im, Complex.ofReal_re,
    Complex.ofReal_im, mul_zero, sub_zero, zero_mul, add_zero]
  have hinv : SQRT2⁻¹ * SQRT2⁻¹ = (2:ℝ)⁻¹ := by
    rw [← mul_inv, sqrt2_mul_self]
  linear_combination (z.re * z.re + z.im * z.im) * hinv

lemma normalized_apply_h (q : Qubit) (hq : normalized q) : normalized (apply_h q) := by
  obtain ⟨a, b⟩ := q
  simp only [normalized, apply_h] at hq ⊢
  rw [abs2_div_sqrt2, abs2_div_sqrt2, div_add_div_same, abs2_add_add_abs2_sub, hq]
  norm_num

lemma normalized_apply_x (q : Qubit) (hq : normalized q) : normalized (apply_x q) := by
  simp only [normalized, apply_x] at hq ⊢
  linarith

lemma normalized_measure_z_collapsed (q : Qubit) (g : RNG) :
    normalized (measure_z q g).2.1 := by
  have hz : (measure_z q g).2.1
      = if (if g.rand.1 < abs2 q.1 then (0:ℕ) else 1) = 0 then KET0 else KET1 := rfl
  rw [hz]
  split_ifs <;> first | exact normalized_KET0 | exact normalized_KET1

lemma normalized_measure_x_collapsed (q : Qubit) (g : RNG) :
    normalized (measure_x q g).2.1 := by
  have hx : (measure_x q g).2.1
      = if (measure_z (apply_h q) g).1 = 0 then KETP else KETM := rfl
  rw [hx]
  split_ifs
  · exact normalized_KETP
  · exact normalized_KETM

/-- C9: every state the program produces satisfies the normalization
invariant: the four canonical states, the states built by `prepare_bb84`,
the images of normalized states under `apply_h` and `apply_x`, and every
post-measurement collapsed state of `measure_z`, `measure_x` and
`measure_in_basis`. -/
theorem C9_normalization_invariant :
    (normalized KET0 ∧ normalized KET1 ∧ normalized KETP ∧ normalized KETM)
    ∧ (∀ basis bit : ℕ, normalized (prepare_bb84 basis bit))
    ∧ (∀ q : Qubit, normalized q → normalized (apply_h q))
    ∧ (∀ q : Qubit, normalized q → normalized (apply_x q))
    ∧ (∀ (q : Qubit) (g : RNG) (basis : ℕ),
        normalized (measure_z q g).2.1 ∧ normalized (measure_x q g).2.1
        ∧ normalized (measure_in_basis q basis g).2.1) := by
  refine ⟨⟨normalized_KET0, normalized_KET1, normalized_KETP, normalized_KETM⟩,
    normalized_prepare, normalized_apply_h, normalized_apply_x, ?_⟩
  intro q g basis
  refine ⟨normalized_measure_z_collapsed q g, normalized_measure_x_collapsed q g, ?_⟩
  rw [measure_in_basis]
  split_ifs
  · exact normalized_measure_z_collapsed q g
  · exact normalized_measure_x_collapsed q g

theorem C9_witness :
    normalized (apply_h KET0) ∧ normalized (apply_x KETP) :=
  ⟨C9_normalization_invariant.2.2.1 KET0 C9_normalization_invariant.1.1,
   C9_normalization_invariant.2.2.2.1 KETP C9_normalization_invariant.1.2.2.1⟩

lemma measure_z_eq (q : Qubit) (g : RNG) :
    measure_z q g = (if g.floats g.fpos < abs2 q.1 then (0:ℕ) else 1,
      (if (if g.floats g.fpos < abs2 q.1 then (0:ℕ) else 1) = 0 then KET0 else KET1),
      { g with fpos := g.fpos + 1 }) := rfl

lemma measure_x_eq (q : Qubit) (g : RNG) :
    measure_x q g = ((measure_z (apply_h q) g).1,
      (if (measure_z (apply_h q) g).1 = 0 then KETP else KETM),
      (measure_z (apply_h q) g).2.2) := rfl

lemma measure_z_p0_one (q : Qubit) (g : RNG) (hq : abs2 q.1 = 1)
    (hr : g.floats g.fpos < 1) :
    measure_z q g = (0, KET0, { g with fpos := g.fpos + 1 }) := by
  rw [measure_z_eq, hq]
  simp [hr]

lemma measure_z_p0_zero (q : Qubit) (g : RNG) (hq : abs2 q.1 = 0)
    (hr : 0 ≤ g.floats g.fpos) :
    measure_z q g = (1, KET1, { g with fpos := g.fpos + 1 }) := by
  rw [measure_z_eq, hq]
  simp [not_lt.mpr hr]

lemma abs2_KET0_fst : abs2 KET0.1 = 1 := by
  simp [KET0, abs2]

lemma abs2_KET1_fst : abs2 KET1.1 = 0 := by
  simp [KET1, abs2]

lemma abs2_apply_h_KETP_fst : abs2 (apply_h KETP).1 = 1 := by
  have h : (apply_h KETP).1
      = (((1 / SQRT2 : ℝ) : ℂ) + ((1 / SQRT2 : ℝ) : ℂ)) / ((SQRT2 : ℝ) : ℂ) := rfl
  rw [h, ← Complex.ofReal_add, abs2_div_sqrt2, abs2_ofReal, div_add_div_same]
  have h2 : (1 + 1) / SQRT2 * ((1 + 1) / SQRT2) = 2 := by
    rw [div_mul_div_comm, sqrt2_mul_self]
    norm_num
  rw [h2]
  norm_num

lemma abs2_apply_h_KETM_fst : abs2 (apply_h KETM).1 = 0 := by
  have h : (apply_h KETM).1
      = (((1 / SQRT2 : ℝ) : ℂ) + ((-(1 / SQRT2) : ℝ) : ℂ)) / ((SQRT2 : ℝ) : ℂ) := rfl
  rw [h, ← Complex.ofReal_add, abs2_div_sqrt2, abs2_ofReal]
  simp

lemma maybe_bitflip_zero (q : Qubit) (g : RNG) : maybe_bitflip q 0 g = (q, g) := by
  unfold maybe_bitflip
  rw [if_pos (le_refl (0:ℝ))]

/-- Measuring a freshly prepared BB84 state in its preparation basis is
deterministic: the outcome is the prepared bit and the state collapses back
to the prepared state, for any draw in `[0, 1)`. -/
lemma measure_prepared (b x : ℕ) (hb : b < 2) (hx : x < 2) (g : RNG)
    (hr0 : 0 ≤ g.floats g.fpos) (hr1 : g.floats g.fpos < 1) :
    measure_in_basis (prepare_bb84 b x) b g
      = (x, prepare_bb84 b x, { g with fpos := g.fpos + 1 }) := by
  interval_cases b <;> interval_cases x
  · show measure_z KET0 g = (0, KET0, { g with fpos := g.fpos + 1 })
    exact measure_z_p0_one KET0 g abs2_KET0_fst hr1
  · show measure_z KET1 g = (1, KET1, { g with fpos := g.fpos + 1 })
    exact measure_z_p0_zero KET1 g abs2_KET1_fst hr0
  · show measure_x KETP g = (0, KETP, { g with fpos := g.fpos + 1 })
    rw [measure_x_eq, measure_z_p0_one (apply_h KETP) g abs2_apply_h_KETP_fst hr1]
    simp
  · show measure_x KETM g = (1, KETM, { g with fpos := g.fpos + 1 })
    rw [measure_x_eq, measure_z_p0_zero (apply_h KETM) g abs2_apply_h_KETM_fst hr0]
    simp

lemma set_getD_self {α : Type _} (l : List α) (i : ℕ) (d : α) (h : i < l.length) :
    l.set i (l.getD i d) = l := by
  apply List.ext_getElem?
  intro n
  rw [List.getElem?_set]
  by_cases h1 : i = n
  · subst h1
    rw [if_pos rfl, if_pos h, List.getD_eq_getElem _ _ h, List.getElem?_eq_getElem h]
  · rw [if_neg h1]

lemma snd_mem_of_mem_enum {α : Type _} {l : List α} {p : ℕ × α}
    (hp : p ∈ l.enum) : p.2 ∈ l := by
  rw [List.mem_enum_iff_getElem?] at hp
  exact List.getElem?_mem hp

lemma verify_step_honest (secret : BillSecret) (acc : ℕ × Bill × RNG) (j : ℕ)
    (hjlen : j < acc.2.1.qubits.length)
    (hjb : secret.basis.getD j 0 < 2) (hjx : secret.bits.getD j 0 < 2)
    (hjq : acc.2.1.qubits.getD j (0, 0)
      = prepare_bb84 (secret.basis.getD j 0) (secret.bits.getD j 0))
    (hr0 : 0 ≤ acc.2.2.floats acc.2.2.fpos) (hr1 : acc.2.2.floats acc.2.2.fpos < 1) :
    verify_step secret 0 acc j
      = (acc.1 + 1, acc.2.1, { acc.2.2 with fpos := acc.2.2.fpos + 1 }) := by
  have hmb := maybe_bitflip_zero (acc.2.1.qubits.getD j (0, 0)) acc.2.2
  have hms : measure_in_basis (acc.2.1.qubits.getD j (0, 0))
      (secret.basis.getD j 0) acc.2.2
      = (secret.bits.getD j 0,
         prepare_bb84 (secret.basis.getD j 0) (secret.bits.getD j 0),
         { acc.2.2 with fpos := acc.2.2.fpos + 1 }) := by
    rw [hjq]
    exact measure_prepared _ _ hjb hjx acc.2.2 hr0 hr1
  simp only [verify_step, hmb, hms]
  rw [if_true, ← hjq, set_getD_self _ _ _ hjlen]

lemma foldl_verify_step_honest (secret : BillSecret) (indices : List ℕ) :
    ∀ (acc : ℕ × Bill × RNG), acc.2.2.Valid →
    (∀ i ∈ indices, i < acc.2.1.qubits.length
      ∧ secret.basis.getD i 0 < 2 ∧ secret.bits.getD i 0 < 2
      ∧ acc.2.1.qubits.getD i (0, 0)
          = prepare_bb84 (secret.basis.getD i 0) (secret.bits.getD i 0)) →
    indices.foldl (verify_step secret 0) acc
      = (acc.1 + indices.length, acc.2.1,
         { acc.2.2 with fpos := acc.2.2.fpos + indices.length }) := by
  induction indices with
  | nil =>
    intro acc _ _
    rfl
  | cons j rest ih =>
    intro acc hV hall
    obtain ⟨hjlen, hjb, hjx, hjq⟩ := hall j (List.mem_cons_self j rest)
    rw [List.foldl_cons,
      verify_step_honest secret acc j hjlen hjb hjx hjq
        (hV acc.2.2.fpos).1 (hV acc.2.2.fpos).2,
      ih (acc.1 + 1, acc.2.1, { acc.2.2 with fpos := acc.2.2.fpos + 1 })
        (fun i => hV i) (fun i hi => hall i (List.mem_cons_of_mem j hi))]
    dsimp only
    have harith1 : acc.1 + 1 + rest.length = acc.1 + (rest.length + 1) := by omega
    have harith2 : acc.2.2.fpos + 1 + rest.length = acc.2.2.fpos + (rest.length + 1) := by
      omega
    rw [List.length_cons, harith1, harith2]

lemma verify_indices_honest (nd : QuorumNode) (bill : Bill) (indices : List ℕ)
    (g : RNG) (secret : BillSecret)
    (hsec : nd.secrets bill.serial = some secret)
    (hV : g.Valid)
    (hall : ∀ i ∈ indices, i < bill.qubits.length
      ∧ secret.basis.getD i 0 < 2 ∧ secret.bits.getD i 0 < 2
      ∧ bill.qubits.getD i (0, 0)
          = prepare_bb84 (secret.basis.getD i 0) (secret.bits.getD i 0)) :
    nd.verify_indices bill indices 0 g
      = (indices.length, indices.length, bill,
         { g with fpos := g.fpos + indices.length }) := by
  unfold QuorumNode.verify_indices
  rw [hsec]
  dsimp only
  rw [foldl_verify_step_honest secret indices (0, bill, g) hV hall]
  rw [Nat.zero_add]

lemma nodeLoop_honest (th : ℕ) (serial : String) (asg : List (List ℕ))
    (mk : ℕ → RNG) (secret : BillSecret)
    (hmk : ∀ s, (mk s).Valid)
    (hb2 : ∀ i, secret.basis.getD i 0 < 2) (hx2 : ∀ i, secret.bits.getD i 0 < 2)
    (l : List (ℕ × QuorumNode)) :
    ∀ (st : LoopState),
    st.bill.serial = serial →
    (∀ p ∈ l, p.2.secrets serial = some secret) →
    (∀ i j, i ∈ asg.getD j ([] : List ℕ) → i < st.bill.qubits.length
      ∧ st.bill.qubits.getD i (0, 0)
          = prepare_bb84 (secret.basis.getD i 0) (secret.bits.getD i 0)) →
    (nodeLoop th serial asg 0 mk l st).bill = st.bill
    ∧ (nodeLoop th serial asg 0 mk l st).matches_total + st.measured_total
        = (nodeLoop th serial asg 0 mk l st).measured_total + st.matches_total := by
  induction l with
  | nil =>
    intro st _ _ _
    exact ⟨rfl, Nat.add_comm _ _⟩
  | cons p rest ih =>
    intro st hser hl hidx
    obtain ⟨k, nd⟩ := p
    have hsec : nd.secrets serial = some secret := hl (k, nd) (List.mem_cons_self _ _)
    simp only [nodeLoop]
    by_cases h : st.approvals ≥ th
    · rw [if_pos h]
      exact ⟨rfl, by omega⟩
    · rw [if_neg h]
      have hs : nd.has_secret serial = true := by
        rw [QuorumNode.has_secret, hsec]
        rfl
      rw [if_pos hs]
      have hsec' : nd.secrets st.bill.serial = some secret := by
        rw [hser]
        exact hsec
      have hvi := verify_indices_honest nd st.bill (asg.getD k [])
        (mk ((st.rng.getrandbits64.1 ^^^ (k <<< 32)) ^^^ nd.node_id)) secret hsec'
        (hmk ((st.rng.getrandbits64.1 ^^^ (k <<< 32)) ^^^ nd.node_id))
        (fun i hi => ⟨(hidx i k hi).1, hb2 i, hx2 i, (hidx i k hi).2⟩)
      rw [hvi]
      dsimp only
      obtain ⟨hbill, htot⟩ := ih
        ⟨st.approvals + 1, st.matches_total + (asg.getD k []).length,
         st.measured_total + (asg.getD k []).length, st.bill, st.rng.getrandbits64.2⟩
        hser (fun q hq => hl q (List.mem_cons_of_mem _ hq)) hidx
      dsimp only at htot
      exact ⟨hbill, by omega⟩

lemma mint_secret_basis_lt (ent : Entropy) (n i : ℕ) :
    (mint_secret ent n).basis.getD i 0 < 2 := by
  rcases lt_or_ge i ((mint_secret ent n).basis.length) with hi | hi
  · rw [List.getD_eq_getElem _ _ hi]
    simp only [mint_secret, List.getElem_map, List.getElem_range]
    omega
  · rw [List.getD_eq_default _ _ hi]
    norm_num

lemma mint_secret_bits_lt (ent : Entropy) (n i : ℕ) :
    (mint_secret ent n).bits.getD i 0 < 2 := by
  rcases lt_or_ge i ((mint_secret ent n).bits.length) with hi | hi
  · rw [List.getD_eq_getElem _ _ hi]
    simp only [mint_secret, List.getElem_map, List.getElem_range]
    omega
  · rw [List.getD_eq_default _ _ hi]
    norm_num

lemma mint_bill_qubits_length (svc : QuorumService) (ent : Entropy) (n : ℕ)
    (owner : String) (ledger : Ledger) :
    (mint_bill svc ent n owner ledger).1.qubits.length = n := by
  simp [mint_bill]

lemma mint_bill_qubits_getD (svc : QuorumService) (ent : Entropy) (n : ℕ)
    (owner : String) (ledger : Ledger) (i : ℕ) (hi : i < n) :
    (mint_bill svc ent n owner ledger).1.qubits.getD i (0, 0)
      = prepare_bb84 ((mint_secret ent n).basis.getD i 0)
          ((mint_secret ent n).bits.getD i 0) := by
  rw [List.getD_eq_getElem _ _ (by
    rw [mint_bill_qubits_length]
    exact hi)]
  simp [mint_bill]

lemma mint_bill_nodes_secret (svc : QuorumService) (ent : Entropy) (n : ℕ)
    (owner : String) (ledger : Ledger) :
    ∀ p ∈ (mint_bill svc ent n owner ledger).2.1.nodes.enum,
      p.2.secrets ent.serial = some (mint_secret ent n) := by
  intro p hp
  have hmem := snd_mem_of_mem_enum hp
  simp only [mint_bill] at hmem
  rw [List.mem_map] at hmem
  obtain ⟨nd, _, hnd⟩ := hmem
  rw [← hnd]
  simp [QuorumNode.store_secret]

/-- C4: with noise probability 0 and tolerance 0, a freshly minted bill
submitted by its recorded owner is always accepted, for every bill length,
seed, draw streams with values in `[0,1)`, and quorum with
`1 <= threshold <= nodeCount`: every measured site is measured in its
preparation basis, so every outcome matches the secret bit and
`matches_total = measured_total`. -/
theorem C4_honest_path_accepts (svc : QuorumService) (ledger : Ledger)
    (ent ent2 : Entropy) (n : ℕ) (owner receiver : String) (seed : ℕ)
    (mk : ℕ → RNG)
    (hth1 : 1 ≤ svc.threshold) (hthN : svc.threshold ≤ svc.nodes.length)
    (hmk : ∀ s, (mk s).Valid)
    (hfresh : ¬ ledger.is_spent ent.serial) :
    acceptedOf (verify_and_remint (mint_bill svc ent n owner ledger).2.1
      (mint_bill svc ent n owner ledger).1 owner receiver
      (mint_bill svc ent n owner ledger).2.2 0 0 seed mk ent2) = true := by
  have h1 : ¬ (mint_bill svc ent n owner ledger).2.2.is_spent
      (mint_bill svc ent n owner ledger).1.serial := hfresh
  have h2 : (mint_bill svc ent n owner ledger).2.2.owner_of
      (mint_bill svc ent n owner ledger).1.serial = some owner := by
    show (ledger.register ent.serial owner).owner_of ent.serial = some owner
    simp [Ledger.register, Ledger.owner_of]
  rw [verify_main _ _ owner receiver _ 0 0 seed mk ent2 h1 h2 le_rfl
    (Int.natCast_nonneg _)]
  have hthr : (mint_bill svc ent n owner ledger).2.1.threshold = svc.threshold := rfl
  have hserial : (mint_bill svc ent n owner ledger).1.serial = ent.serial := rfl
  have hcount : secretHolders (mint_bill svc ent n owner ledger).2.1.nodes
      (mint_bill svc ent n owner ledger).1.serial = svc.nodes.length := by
    rw [secretHolders]
    have hall : ∀ nd ∈ (mint_bill svc ent n owner ledger).2.1.nodes,
        nd.has_secret (mint_bill svc ent n owner ledger).1.serial = true := by
      intro nd hnd
      simp only [mint_bill] at hnd
      rw [List.mem_map] at hnd
      obtain ⟨nd0, _, hnd0⟩ := hnd
      rw [← hnd0]
      simp [QuorumNode.store_secret, QuorumNode.has_secret, hserial]
    rw [List.filter_eq_self.mpr hall]
    simp [mint_bill]
  have happ := sessionState_approvals (mint_bill svc ent n owner ledger).2.1
    (mint_bill svc ent n owner ledger).1 0 seed mk
  rw [hthr, hcount] at happ
  have hge : ¬ (sessionState (mint_bill svc ent n owner ledger).2.1
      (mint_bill svc ent n owner ledger).1 0 seed mk).approvals
      < (mint_bill svc ent n owner ledger).2.1.threshold := by
    rw [happ, hthr]
    omega
  rw [if_neg hge]
  have hidx : ∀ i j, i ∈ (assignments (mint_bill svc ent n owner ledger).1.n
      (mint_bill svc ent n owner ledger).2.1.nodes.length).getD j ([] : List ℕ) →
      i < (mint_bill svc ent n owner ledger).1.qubits.length
      ∧ (mint_bill svc ent n owner ledger).1.qubits.getD i (0, 0)
          = prepare_bb84 ((mint_secret ent n).basis.getD i 0)
              ((mint_secret ent n).bits.getD i 0) := by
    intro i j hij
    rcases lt_or_ge j (assignments (mint_bill svc ent n owner ledger).1.n
        (mint_bill svc ent n owner ledger).2.1.nodes.length).length with hj | hj
    · have hjN : j < (mint_bill svc ent n owner ledger).2.1.nodes.length := by
        rw [assignments, List.length_map, List.length_range] at hj
        exact hj
      have hchar := (assignments_mem _ _ j hjN i).mp hij
      have hin : i < n := by
        have := hchar.1
        rw [Bill.n, mint_bill_qubits_length] at this
        exact this
      constructor
      · rw [mint_bill_qubits_length]
        exact hin
      · exact mint_bill_qubits_getD svc ent n owner ledger i hin
    · rw [List.getD_eq_default _ _ hj] at hij
      exact absurd hij (List.not_mem_nil i)
  have hloop := nodeLoop_honest ((mint_bill svc ent n owner ledger).2.1.threshold)
    ((mint_bill svc ent n owner ledger).1.serial)
    (assignments (mint_bill svc ent n owner ledger).1.n
      (mint_bill svc ent n owner ledger).2.1.nodes.length)
    mk (mint_secret ent n) hmk (mint_secret_basis_lt ent n) (mint_secret_bits_lt ent n)
    ((mint_bill svc ent n owner ledger).2.1.nodes.enum)
    ⟨0, 0, 0, (mint_bill svc ent n owner ledger).1, mk seed⟩
    rfl
    (mint_bill_nodes_secret svc ent n owner ledger)
    hidx
  have htot : (sessionState (mint_bill svc ent n owner ledger).2.1
      (mint_bill svc ent n owner ledger).1 0 seed mk).matches_total
      = (sessionState (mint_bill svc ent n owner ledger).2.1
        (mint_bill svc ent n owner ledger).1 0 seed mk).measured_total := by
    have h := hloop.2
    dsimp only at h
    simp only [sessionState]
    omega
  have hacc : decide (((sessionState (mint_bill svc ent n owner ledger).2.1
      (mint_bill svc ent n owner ledger).1 0 seed mk).matches_total : ℤ)
      ≥ ((sessionState (mint_bill svc ent n owner ledger).2.1
        (mint_bill svc ent n owner ledger).1 0 seed mk).measured_total : ℤ) - 0)
      = true := by
    rw [htot]
    exact decide_eq_true_eq.mpr (by omega)
  rw [if_pos hacc]
  rfl

noncomputable def mkW01 : ℕ → RNG := fun _ => ⟨fun _ => 0, fun _ => 0, 0, 0⟩

theorem C4_witness :
    acceptedOf (verify_and_remint (mint_bill svcW entW 8 "alice" ledgerW).2.1
      (mint_bill svcW entW 8 "alice" ledgerW).1 "alice" "bob"
      (mint_bill svcW entW 8 "alice" ledgerW).2.2 0 0 0 mkW01 entW) = true :=
  C4_honest_path_accepts svcW ledgerW entW entW 8 "alice" "bob" 0 mkW01
    (by decide) (by decide) (fun _ _ => ⟨le_refl 0, zero_lt_one⟩) (by decide)

lemma measure_z_fst (q : Qubit) (g : RNG) :
    (measure_z q g).1 = if g.floats g.fpos < abs2 q.1 then 0 else 1 := by
  rw [measure_z_eq]

lemma measure_in_basis_zero (q : Qubit) (g : RNG) :
    measure_in_basis q 0 g = measure_z q g := rfl

lemma measure_in_basis_one (q : Qubit) (g : RNG) :
    measure_in_basis q 1 g = measure_x q g := rfl

lemma measure_x_fst (q : Qubit) (g : RNG) :
    (measure_x q g).1 = (measure_z (apply_h q) g).1 := by
  rw [measure_x_eq]

/-- A single-use model of `random.Random` whose every `random()` draw is `r`. -/
noncomputable def oneDraw (r : ℝ) : RNG := ⟨fun _ => r, fun _ => 0, 0, 0⟩

lemma oneDraw_head (r : ℝ) : (oneDraw r).floats (oneDraw r).fpos = r := rfl

/-- One site of the intercept-resend experiment: the attacker measures the
prepared state in a guessed basis (the per-site body of
`counterfeit_intercept_resend`), re-prepares the observed outcome, and the
quorum then measures the forged site in the true basis with no noise (the
per-site body of `verify_indices`), passing iff the outcome equals the
secret bit. -/
noncomputable def sitePass (b x guess : ℕ) (r1 r2 : ℝ) : Bool :=
  let att := measure_in_basis (prepare_bb84 b x) guess (oneDraw r1)
  let ver := measure_in_basis (prepare_bb84 guess att.1) b (oneDraw r2)
  decide (ver.1 = x)

lemma abs2_one : abs2 (1 : ℂ) = 1 := by
  simp [abs2]

lemma abs2_KETP_fst : abs2 KETP.1 = 1 / 2 := by
  show abs2 (((1 / SQRT2 : ℝ) : ℂ)) = 1 / 2
  rw [abs2_ofReal, inv_sqrt2_sq]

lemma abs2_KETM_fst : abs2 KETM.1 = 1 / 2 := by
  show abs2 (((1 / SQRT2 : ℝ) : ℂ)) = 1 / 2
  rw [abs2_ofReal, inv_sqrt2_sq]

lemma abs2_apply_h_KET0_fst : abs2 (apply_h KET0).1 = 1 / 2 := by
  show abs2 ((1 + 0 : ℂ) / ((SQRT2 : ℝ) : ℂ)) = 1 / 2
  rw [abs2_div_sqrt2, add_zero, abs2_one]

lemma abs2_apply_h_KET1_fst : abs2 (apply_h KET1).1 = 1 / 2 := by
  show abs2 ((0 + 1 : ℂ) / ((SQRT2 : ℝ) : ℂ)) = 1 / 2
  rw [abs2_div_sqrt2, zero_add, abs2_one]

lemma abs2_prepare_one_fst (o : ℕ) : abs2 (prepare_bb84 1 o).1 = 1 / 2 := by
  rw [prepare_bb84, if_neg (by norm_num)]
  split_ifs
  · exact abs2_KETP_fst
  · exact abs2_KETM_fst

lemma abs2_apply_h_prepare_zero_fst (o : ℕ) :
    abs2 (apply_h (prepare_bb84 0 o)).1 = 1 / 2 := by
  rw [prepare_bb84, if_pos rfl]
  split_ifs
  · exact abs2_apply_h_KET0_fst
  · exact abs2_apply_h_KET1_fst

/-- The per-site intercept-resend experiment passes iff the attacker
guessed the preparation basis, or the verifier's fresh coin (`r2 < 1/2`)
happens to reproduce the secret bit. -/
lemma sitePass_char (b x g : ℕ) (r1 r2 : ℝ) (hb : b < 2) (hx : x < 2) (hg : g < 2)
    (h10 : 0 ≤ r1) (h11 : r1 < 1) (h20 : 0 ≤ r2) (h21 : r2 < 1) :
    (sitePass b x g r1 r2 = true ↔ (g = b ∨ (x = 0 ↔ r2 < 1 / 2))) := by
  interval_cases b <;> interval_cases x <;> interval_cases g
  · -- b = 0, x = 0, g = 0
    simp only [sitePass]
    rw [measure_prepared 0 0 (by norm_num) (by norm_num) (oneDraw r1) h10 h11]
    dsimp only
    rw [measure_prepared 0 0 (by norm_num) (by norm_num) (oneDraw r2) h20 h21]
    simp
  · -- b = 0, x = 0, g = 1
    simp only [sitePass, measure_in_basis_one, measure_in_basis_zero, measure_x_fst]
    rw [measure_z_fst (prepare_bb84 1 _) (oneDraw r2), oneDraw_head,
      abs2_prepare_one_fst]
    by_cases hc : r2 < 1 / 2 <;> simp [hc]
  · -- b = 0, x = 1, g = 0
    simp only [sitePass]
    rw [measure_prepared 0 1 (by norm_num) (by norm_num) (oneDraw r1) h10 h11]
    dsimp only
    rw [measure_prepared 0 1 (by norm_num) (by norm_num) (oneDraw r2) h20 h21]
    simp
  · -- b = 0, x = 1, g = 1
    simp only [sitePass, measure_in_basis_one, measure_in_basis_zero, measure_x_fst]
    rw [measure_z_fst (prepare_bb84 1 _) (oneDraw r2), oneDraw_head,
      abs2_prepare_one_fst]
    by_cases hc : r2 < 1 / 2 <;> simp [hc]
  · -- b = 1, x = 0, g = 0
    simp only [sitePass, measure_in_basis_one, measure_in_basis_zero, measure_x_fst]
    rw [measure_z_fst (apply_h (prepare_bb84 0 _)) (oneDraw r2), oneDraw_head,
      abs2_apply_h_prepare_zero_fst]
    by_cases hc : r2 < 1 / 2 <;> simp [hc]
  · -- b = 1, x = 0, g = 1
    simp only [sitePass]
    rw [measure_prepared 1 0 (by norm_num) (by norm_num) (oneDraw r1) h10 h11]
    dsimp only
    rw [measure_prepared 1 0 (by norm_num) (by norm_num) (oneDraw r2) h20 h21]
    simp
  · -- b = 1, x = 1, g = 0
    simp only [sitePass, measure_in_basis_one, measure_in_basis_zero, measure_x_fst]
    rw [measure_z_fst (apply_h (prepare_bb84 0 _)) (oneDraw r2), oneDraw_head,
      abs2_apply_h_prepare_zero_fst]
    by_cases hc : r2 < 1 / 2 <;> simp [hc]
  · -- b = 1, x = 1, g = 1
    simp only [sitePass]
    rw [measure_prepared 1 1 (by norm_num) (by norm_num) (oneDraw r1) h10 h11]
    dsimp only
    rw [measure_prepared 1 1 (by norm_num) (by norm_num) (oneDraw r2) h20 h21]
    simp

lemma counterfeitQubits_char :
    ∀ (qs : List Qubit) (g : RNG) (i : ℕ), i < qs.length →
    ∃ guess o, guess < 2
      ∧ (counterfeitQubits qs g).1.getD i (0, 0) = prepare_bb84 guess o := by
  intro qs
  induction qs with
  | nil =>
    intro g i hi
    simp at hi
  | cons q rest ih =>
    intro g i hi
    cases i with
    | zero =>
      refine ⟨_, _, ?_, rfl⟩
      exact Nat.mod_lt _ (by norm_num)
    | succ i' =>
      have hstep : (counterfeitQubits (q :: rest) g).1
          = prepare_bb84 (g.ints g.ipos % 2)
              ((measure_in_basis q (g.ints g.ipos % 2) { g with ipos := g.ipos + 1 }).1)
            :: (counterfeitQubits rest
              (measure_in_basis q (g.ints g.ipos % 2) { g with ipos := g.ipos + 1 }).2.2).1
          := rfl
      rw [hstep, List.getD_cons_succ]
      exact ih _ i' (Nat.lt_of_succ_lt_succ hi)

/-- The number of per-site (guess, coin) pairs that pass, out of the four
equally likely pairs: the pass predicate from `sitePass_char` with the
guess encoded as a Bool and the coin `c` standing for `r2 < 1/2`. -/
lemma site_count (b x : ℕ) (hb : b < 2) (hx : x < 2) :
    ((Finset.univ.filter (fun p : Bool × Bool =>
        (cond p.1 1 0 = b) ∨ (x = 0 ↔ p.2 = true))).card : ℚ)
      = 3 / 4 * ((Finset.univ : Finset (Bool × Bool)).card : ℚ) := by
  interval_cases b <;> interval_cases x
  · rw [show (Finset.univ.filter (fun p : Bool × Bool =>
        (cond p.1 1 0 = 0) ∨ ((0:ℕ) = 0 ↔ p.2 = true))).card = 3 from by decide,
      show ((Finset.univ : Finset (Bool × Bool))).card = 4 from by decide]
    norm_num
  · rw [show (Finset.univ.filter (fun p : Bool × Bool =>
        (cond p.1 1 0 = 0) ∨ ((1:ℕ) = 0 ↔ p.2 = true))).card = 3 from by decide,
      show ((Finset.univ : Finset (Bool × Bool))).card = 4 from by decide]
    norm_num
  · rw [show (Finset.univ.filter (fun p : Bool × Bool =>
        (cond p.1 1 0 = 1) ∨ ((0:ℕ) = 0 ↔ p.2 = true))).card = 3 from by decide,
      show ((Finset.univ : Finset (Bool × Bool))).card = 4 from by decide]
    norm_num
  · rw [show (Finset.univ.filter (fun p : Bool × Bool =>
        (cond p.1 1 0 = 1) ∨ ((1:ℕ) = 0 ↔ p.2 = true))).card = 3 from by decide,
      show ((Finset.univ : Finset (Bool × Bool))).card = 4 from by decide]
    norm_num

lemma site_subtype_card (b x : ℕ) (hb : b < 2) (hx : x < 2) :
    Fintype.card {gc : Bool × Bool //
        (cond gc.1 1 0 = b) ∨ (x = 0 ↔ gc.2 = true)} = 3 := by
  interval_cases b <;> interval_cases x <;> decide

/-- C10: a forged bill keeps the serial and every site is a re-prepared
guessed state; a single forged site fully measured by the quorum passes iff
the guess was right or the verifier's fresh half-probability coin matches
the secret bit (`sitePass_char`), an event of probability 3/4 under the
uniform law of the guess and coin; over `n` independent sites the passing
fraction is `(3/4)^n`, the tolerance-0 acceptance probability. -/
theorem C10_forgery_rate :
    (∀ (bill : Bill) (g : RNG),
      (counterfeit_intercept_resend bill g).1.serial = bill.serial
      ∧ ∀ i, i < bill.qubits.length →
        ∃ guess o, guess < 2
          ∧ (counterfeit_intercept_resend bill g).1.qubits.getD i (0, 0)
              = prepare_bb84 guess o)
    ∧ (∀ (b x g : ℕ) (r1 r2 : ℝ), b < 2 → x < 2 → g < 2 →
      0 ≤ r1 → r1 < 1 → 0 ≤ r2 → r2 < 1 →
      (sitePass b x g r1 r2 = true ↔ (g = b ∨ (x = 0 ↔ r2 < 1 / 2))))
    ∧ (∀ (b x : ℕ), b < 2 → x < 2 →
      ((Finset.univ.filter (fun p : Bool × Bool =>
          (cond p.1 1 0 = b) ∨ (x = 0 ↔ p.2 = true))).card : ℚ)
        = 3 / 4 * ((Finset.univ : Finset (Bool × Bool)).card : ℚ))
    ∧ ∀ (n : ℕ) (bv xv : Fin n → ℕ), (∀ i, bv i < 2) → (∀ i, xv i < 2) →
      ((Fintype.card {f : Fin n → Bool × Bool //
          ∀ i, (cond (f i).1 1 0 = bv i) ∨ (xv i = 0 ↔ (f i).2 = true)} : ℚ)
        = (3 / 4) ^ n * (Fintype.card (Fin n → Bool × Bool) : ℚ)) := by
  refine ⟨?_, fun b x g r1 r2 hb hx hg h10 h11 h20 h21 =>
    sitePass_char b x g r1 r2 hb hx hg h10 h11 h20 h21, site_count, ?_⟩
  · intro bill g
    exact ⟨rfl, fun i hi => counterfeitQubits_char bill.qubits g i hi⟩
  · intro n bv xv hbv hxv
    have hc1 : Fintype.card {f : Fin n → Bool × Bool //
        ∀ i, (cond (f i).1 1 0 = bv i) ∨ (xv i = 0 ↔ (f i).2 = true)}
        = ∏ i : Fin n, Fintype.card {gc : Bool × Bool //
            (cond gc.1 1 0 = bv i) ∨ (xv i = 0 ↔ gc.2 = true)} := by
      rw [Fintype.card_congr
        (@Equiv.subtypePiEquivPi (Fin n) (fun _ => Bool × Bool)
          (fun i gc => (cond gc.1 1 0 = bv i) ∨ (xv i = 0 ↔ gc.2 = true))),
        Fintype.card_pi]
    have hc2 : ∏ i : Fin n, Fintype.card {gc : Bool × Bool //
        (cond gc.1 1 0 = bv i) ∨ (xv i = 0 ↔ gc.2 = true)} = 3 ^ n := by
      rw [Finset.prod_congr rfl
        (fun (i : Fin n) _ => site_subtype_card (bv i) (xv i) (hbv i) (hxv i)),
        Finset.prod_const, Finset.card_univ, Fintype.card_fin]
    have hc3 : Fintype.card (Fin n → Bool × Bool) = 4 ^ n := by
      rw [Fintype.card_fun]
      simp [Fintype.card_fin]
    rw [hc1, hc2, hc3]
    push_cast
    rw [div_pow]
    field_simp

theorem C10_witness :
    sitePass 0 0 0 0 0 = true ↔ ((0:ℕ) = 0 ∨ ((0:ℕ) = 0 ↔ (0:ℝ) < 1 / 2)) :=
  C10_forgery_rate.2.1 0 0 0 0 0 (by decide) (by decide) (by decide)
    (le_refl 0) zero_lt_one (le_refl 0) zero_lt_one

end QMoney
